import Mathlib

/-!
Verification of the schema normalization and scoped tree-traversal core of
the `schema-tools` repository: a shallow embedding, in Lean 4, of
`src/process/merge.rs` (the `allOf` composition normalizer and the
`merge_values` deep-merge algorithm) and `src/tools.rs` (the pattern-driven
tree walker `each_mut` / `each`), together with theorems settling the
specification's claims about them.
-/

namespace SchemaTools

/-- The document tree, mirroring `serde_json::Value`.  Objects are kept as
association lists of key/value pairs; the crate is built with the default
`serde_json` features, so the object map is a `BTreeMap` whose iteration
order is the sorted key order, and insertion of a fresh key places it at its
sorted position.  Numbers in every fixture relevant here are small integers,
embedded as `Int`. -/
inductive Json where
  | null : Json
  | bool : Bool → Json
  | num : Int → Json
  | str : String → Json
  | arr : List Json → Json
  | obj : List (String × Json) → Json

namespace Json

/-- `BTreeMap::get` / `Map::get`: look a key up in an object's field list. -/
def objGet (fields : List (String × Json)) (k : String) : Option Json :=
  match fields with
  | [] => none
  | (k', v) :: rest => if k = k' then some v else objGet rest k

/-- `BTreeMap::remove`: drop the entry with the given key, if present. -/
def objRemove (fields : List (String × Json)) (k : String) : List (String × Json) :=
  match fields with
  | [] => []
  | (k', v) :: rest => if k = k' then rest else (k', v) :: objRemove rest k

/-- `BTreeMap::contains_key`. -/
def objContains (fields : List (String × Json)) (k : String) : Bool :=
  (objGet fields k).isSome

end Json

open Json

mutual

/-- `merge_values` from `src/process/merge.rs`:
Object × Object merges the source's entries into the target one key at a
time; Array × Array appends the source's elements after the target's; every
other combination replaces the target with the source. -/
def merge_values : Json → Json → Json
  | .obj a, .obj b => .obj (mergeFields a b)
  | .arr a, .arr b => .arr (a ++ b)
  | _, b => b
termination_by _ y => (sizeOf y, 0)

/-- The `for (k, v) in b` loop of `merge_values` over the source object's
entries, in the source's iteration order. -/
def mergeFields (a : List (String × Json)) : List (String × Json) → List (String × Json)
  | [] => a
  | (k, v) :: rest => mergeFields (mergeEntry a k v) rest
termination_by l => (sizeOf l, 0)

/-- One step of the object loop:
`merge_values(a.entry(k).or_insert(Value::Null), v)`.  An existing entry is
merged in place; an absent key is first inserted as `Null` at its sorted
`BTreeMap` position and the source value merged into that `Null`. -/
def mergeEntry (a : List (String × Json)) (k : String) (v : Json) : List (String × Json) :=
  match a with
  | [] => [(k, merge_values .null v)]
  | (k', v') :: rest =>
    if k = k' then (k', merge_values v' v) :: rest
    else if k < k' then (k, merge_values .null v) :: (k', v') :: rest
    else (k', v') :: mergeEntry rest k v
termination_by (sizeOf v + 1, sizeOf a)

end

/-- The diagnostic lines the normalizer emits through the log facade
(`log::info!` / `log::warn!` in `src/process/merge.rs`), abstracted to tags;
the message text only interpolates the current scope rendering. -/
inductive LogMsg where
  | infoAllOf : LogMsg
  | warnEmptyAllOf : LogMsg
  | warnAllOfNotArray : LogMsg
deriving DecidableEq

/-- `process_merge` from `src/process/merge.rs`.  The caller guarantees the
node is an object containing the key `allOf` (the source `unwrap`s both);
the unreachable fall-through cases leave the node unchanged.  If the `allOf`
value is an empty array or not an array, a warning is logged and the node is
left as-is; otherwise the first branch seeds an accumulator, the remaining
branches are folded in by `merge_values` in array order, the `allOf` key is
removed from the node, and the accumulator is merged into the node (node as
target, accumulator as source). -/
def process_merge (root : Json) : Json × List LogMsg :=
  match root with
  | .obj m =>
    match objGet m "allOf" with
    | some (.arr schemas) =>
      match schemas with
      | [] => (root, [.warnEmptyAllOf])
      | s0 :: rest =>
        let first := rest.foldl merge_values s0
        (merge_values (.obj (objRemove m "allOf")) first, [.infoAllOf])
    | some _ => (root, [.warnAllOfNotArray])
    | none => (root, [])
  | _ => (root, [])

mutual

/-- `process_node` from `src/process/merge.rs`: depth-first descent, children
first; after the children of an object are normalized, a node containing the
key `allOf` undergoes `process_merge`.  The scope argument of the source only
feeds the log text and is dropped here; the emitted log tags are returned. -/
def process_node : Json → Json × List LogMsg
  | .obj m =>
    let r := processFields m
    if objContains r.1 "allOf" then
      let r' := process_merge (.obj r.1)
      (r'.1, r.2 ++ r'.2)
    else (.obj r.1, r.2)
  | .arr xs =>
    let r := processElems xs
    (.arr r.1, r.2)
  | j => (j, [])
termination_by j => sizeOf j

/-- The `for (property, value) in map` loop of `process_node`. -/
def processFields : List (String × Json) → List (String × Json) × List LogMsg
  | [] => ([], [])
  | (k, v) :: rest =>
    let rv := process_node v
    let rr := processFields rest
    ((k, rv.1) :: rr.1, rv.2 ++ rr.2)
termination_by l => sizeOf l

/-- The `for (index, x) in a.iter_mut().enumerate()` loop of `process_node`. -/
def processElems : List Json → List Json × List LogMsg
  | [] => ([], [])
  | v :: rest =>
    let rv := process_node v
    let rr := processElems rest
    (rv.1 :: rr.1, rv.2 ++ rr.2)
termination_by l => sizeOf l

end

/-! ## The pattern tree-walker of `src/tools.rs` -/

/-- Modelled from the spec: `SchemaScope` (`src/scope.rs` is not among the
provided sources).  Per §4.1 it is an ordered stack of `(kind, name)`
segments: `push_str` appends a segment and `pop` removes the most recently
pushed one; rendering is irrelevant to the claims and omitted. -/
abbrev Scope : Type := List (String × String)

/-- `crate::error::Error` restricted to what the walker surfaces:
`NotImplemented` is returned at a wildcard over a non-object node; `other`
stands for any of the crate's remaining variants, used when modelling a
caller-supplied callback that fails. -/
inductive Error where
  | notImplemented : Error
  | other : Error
deriving DecidableEq

/-- The callback shape of `each_mut`:
`FnMut(&mut Value, &[String], &mut SchemaScope) -> Result<(), Error>`.
The closure's captured state is `σ`; it may rewrite the node and may fail. -/
def Cb (σ : Type) : Type :=
  σ → Json → List String → Scope → σ × Json × Option Error

/-- The observable outcome of a walker call: the possibly rewritten node,
the callback state, the scope and captured-parts vectors as the mutable
borrows leave them (also after an `Err` return), and the `Result`; or a
process abort via `panic!`. -/
inductive WOut (σ : Type) where
  | res (node : Json) (st : σ) (scope : Scope) (parts : List String)
      (e : Option Error) : WOut σ
  | panicked : WOut σ

/-- Rust `str::split(c)` over the character list of a string: splitting an
empty string yields one empty piece, and every separator occurrence starts a
new piece. -/
def splitChar (c : Char) : List Char → List (List Char)
  | [] => [[]]
  | x :: xs =>
    if x = c then [] :: splitChar c xs
    else
      match splitChar c xs with
      | [] => [[x]]
      | h :: t => (x :: h) :: t

/-- Rust `str::split(c)` producing strings. -/
def splitString (c : Char) (s : String) : List String :=
  (splitChar c s.data).map (fun l => ⟨l⟩)

set_option linter.unusedVariables false in
/-- Rust `str::replace(pat, rep)` restricted to a non-empty pattern (the
embedded code only replaces the fixed tokens `"~1"` and `"~0"`): replace
non-overlapping occurrences left to right. -/
def listReplace (pat rep : List Char) (s : List Char) : List Char :=
  match s with
  | [] => []
  | x :: xs =>
    if h : pat.isPrefixOf (x :: xs) && pat.length != 0 then
      rep ++ listReplace pat rep ((x :: xs).drop pat.length)
    else
      x :: listReplace pat rep xs
termination_by s.length
decreasing_by
  · simp only [List.length_drop, List.length_cons]
    simp only [Bool.and_eq_true, bne_iff_ne, ne_eq] at h
    omega
  · simp

/-- The value of a non-empty all-digit decimal token, as `str::parse::<usize>`
accepts after `parse_index`'s guards have excluded a leading `+`. -/
def digitsToNat? (l : List Char) : Option Nat :=
  if l ≠ [] ∧ l.all (·.isDigit) then
    some (l.foldl (fun n c => n * 10 + (c.toNat - '0'.toNat)) 0)
  else none

/-- `parse_index` from `serde_json`'s JSON-Pointer implementation: a decimal
index token, rejecting a leading `+` and superfluous leading zeros. -/
def parse_index (s : String) : Option Nat :=
  if s.data.head? = some '+' ∨ (s.data.head? = some '0' ∧ s.length ≠ 1) then none
  else digitsToNat? s.data

/-- JSON-Pointer token unescaping: `token.replace("~1", "/").replace("~0", "~")`. -/
def unescapeToken (s : String) : String :=
  ⟨listReplace "~0".data "~".data (listReplace "~1".data "/".data s.data)⟩

/-- One step of `Value::pointer` / `Value::pointer_mut`: the walker always
builds the single-token pointer `"/" ++ key`, so resolution is one lookup:
by key in an object, by `parse_index` in an array, `None` elsewhere. -/
def pointerStep (node : Json) (key : String) : Option Json :=
  let token := unescapeToken key
  match node with
  | .obj fields => objGet fields token
  | .arr xs => (parse_index token).bind (fun i => xs[i]?)
  | _ => none

/-- Write-back through the mutable pointer of `pointer_mut`: replace the
child that `pointerStep` resolved.  Only invoked when the lookup succeeded. -/
def setChild (node : Json) (key : String) (child : Json) : Json :=
  let token := unescapeToken key
  match node with
  | .obj fields => .obj (fields.map (fun kv => if kv.1 = token then (kv.1, child) else kv))
  | .arr xs =>
    match parse_index token with
    | some i => .arr (xs.set i child)
    | none => node
  | _ => node

mutual

/-- `each_mut` from `src/tools.rs`, with the position `index` into the
pattern expressed by the remaining segment list `segs`.  An exhausted
pattern invokes the callback; a malformed segment (not splitting into
exactly two `:`-parts) hits `panic!`; a `*` key iterates an object's
entries (failing with `NotImplemented` elsewhere); a literal key descends
through the JSON pointer `"/" ++ key` when it resolves.  The `?` operator
propagates a failure *before* the `context.pop()` / `parts.pop()` calls
run, which is the scope leak of §9. -/
def each_mut (node : Json) (context : Scope) (segs : List String)
    (parts : List String) (f : Cb σ) (st : σ) : WOut σ :=
  match segs with
  | [] =>
    match f st node parts context with
    | (st', node', e) => .res node' st' context parts e
  | search :: rest =>
    match splitString ':' search with
    | [type_, key] =>
      if key = "*" then
        match node with
        | .obj fields => eachMutWild [] fields type_ context rest parts f st
        | _ => .res node st context parts (some .notImplemented)
      else
        let ctx1 := context ++ [(type_, key)]
        match pointerStep node key with
        | some child =>
          match each_mut child ctx1 rest parts f st with
          | .panicked => .panicked
          | .res child' st' ctx' parts' (some e) =>
            .res (setChild node key child') st' ctx' parts' (some e)
          | .res child' st' ctx' parts' none =>
            .res (setChild node key child') st' ctx'.dropLast parts' none
        | none => .res node st ctx1.dropLast parts none
    | _ => .panicked
termination_by (segs.length, sizeOf node)

/-- The `for (key, value) in map` loop of the wildcard arm of `each_mut`:
`done` holds the already-visited entries (with their rewritten values),
`pending` the rest.  Each iteration pushes a scope segment and the key,
recurses, and pops both — unless the recursion failed, in which case `?`
returns with both still pushed. -/
def eachMutWild (done pending : List (String × Json)) (type_ : String)
    (context : Scope) (rest : List String) (parts : List String)
    (f : Cb σ) (st : σ) : WOut σ :=
  match pending with
  | [] => .res (.obj done) st context parts none
  | (key, value) :: tl =>
    let ctx1 := context ++ [(type_, key)]
    let parts1 := parts ++ [key]
    match each_mut value ctx1 rest parts1 f st with
    | .panicked => .panicked
    | .res value' st' ctx' parts' (some e) =>
      .res (.obj (done ++ (key, value') :: tl)) st' ctx' parts' (some e)
    | .res value' st' ctx' parts' none =>
      eachMutWild (done ++ [(key, value')]) tl type_ ctx'.dropLast rest parts'.dropLast f st'
termination_by (rest.length + 1, sizeOf pending)

end

/-- `trim_matches('/')`: strip leading and trailing slashes. -/
def trimSlashes (s : String) : String :=
  ⟨((s.data.dropWhile (· = '/')).reverse.dropWhile (· = '/')).reverse⟩

/-- `each_node_mut` from `src/tools.rs`: split the pattern on `/` after
trimming outer slashes, then start `each_mut` at segment index 0 with an
empty captured-parts vector. -/
def each_node_mut (root : Json) (context : Scope) (path : String)
    (f : Cb σ) (st : σ) : WOut σ :=
  each_mut root context (splitString '/' (trimSlashes path)) [] f st

/-- The callback shape of the read-only `each`:
`FnMut(&Value, &[String], &mut SchemaScope) -> Result<(), Error>`. -/
def CbR (σ : Type) : Type :=
  σ → Json → List String → Scope → σ × Option Error

/-- Outcome of the read-only walker: callback state, scope and parts as the
mutable borrows leave them, and the `Result`; or a `panic!` abort. -/
inductive ROut (σ : Type) where
  | res (st : σ) (scope : Scope) (parts : List String)
      (e : Option Error) : ROut σ
  | panicked : ROut σ

mutual

/-- `each` from `src/tools.rs`: identical control flow to `each_mut`, but
the callback only observes the node. -/
def each (node : Json) (context : Scope) (segs : List String)
    (parts : List String) (f : CbR σ) (st : σ) : ROut σ :=
  match segs with
  | [] =>
    match f st node parts context with
    | (st', e) => .res st' context parts e
  | search :: rest =>
    match splitString ':' search with
    | [type_, key] =>
      if key = "*" then
        match node with
        | .obj fields => eachWild fields type_ context rest parts f st
        | _ => .res st context parts (some .notImplemented)
      else
        let ctx1 := context ++ [(type_, key)]
        match pointerStep node key with
        | some child =>
          match each child ctx1 rest parts f st with
          | .panicked => .panicked
          | .res st' ctx' parts' (some e) => .res st' ctx' parts' (some e)
          | .res st' ctx' parts' none => .res st' ctx'.dropLast parts' none
        | none => .res st ctx1.dropLast parts none
    | _ => .panicked
termination_by (segs.length, sizeOf node)

/-- The wildcard loop of `each`. -/
def eachWild (pending : List (String × Json)) (type_ : String)
    (context : Scope) (rest : List String) (parts : List String)
    (f : CbR σ) (st : σ) : ROut σ :=
  match pending with
  | [] => .res st context parts none
  | (key, value) :: tl =>
    let ctx1 := context ++ [(type_, key)]
    let parts1 := parts ++ [key]
    match each value ctx1 rest parts1 f st with
    | .panicked => .panicked
    | .res st' ctx' parts' (some e) => .res st' ctx' parts' (some e)
    | .res st' ctx' parts' none =>
      eachWild tl type_ ctx'.dropLast rest parts'.dropLast f st'
termination_by (rest.length + 1, sizeOf pending)

end

/-- `each_node` from `src/tools.rs`. -/
def each_node (root : Json) (context : Scope) (path : String)
    (f : CbR σ) (st : σ) : ROut σ :=
  each root context (splitString '/' (trimSlashes path)) [] f st

/-! ## Shape discriminators and document predicates -/

/-- `Value::Object` discriminator (`as_object` succeeding). -/
def Json.isObj : Json → Bool
  | .obj _ => true
  | _ => false

/-- `Value::Array` discriminator (`as_array` succeeding). -/
def Json.isArr : Json → Bool
  | .arr _ => true
  | _ => false

mutual

/-- No object node anywhere in the document carries the key `allOf`. -/
def noAllOf : Json → Bool
  | .obj m => !objContains m "allOf" && noAllOfFields m
  | .arr xs => noAllOfElems xs
  | _ => true
termination_by j => sizeOf j

/-- `noAllOf` over an object's field list. -/
def noAllOfFields : List (String × Json) → Bool
  | [] => true
  | (_, v) :: rest => noAllOf v && noAllOfFields rest
termination_by l => sizeOf l

/-- `noAllOf` over an array's elements. -/
def noAllOfElems : List Json → Bool
  | [] => true
  | v :: rest => noAllOf v && noAllOfElems rest
termination_by l => sizeOf l

end

/-- The `BTreeMap` representation invariant: field keys strictly sorted. -/
def ObjSorted (fields : List (String × Json)) : Prop :=
  List.Sorted (· < ·) (fields.map Prod.fst)

/-! ## Concrete fixtures and callbacks used by the claims -/

/-- First `allOf` branch of the end-to-end fixture (`test_merge1`). -/
def branch0 : Json :=
  .obj [("properties", .obj [("p2", .obj [("type", .str "string")])]),
        ("required", .arr [.str "p2"]),
        ("type", .str "object")]

/-- Second `allOf` branch of the end-to-end fixture (`test_merge1`). -/
def branch1 : Json :=
  .obj [("properties", .obj [("p1", .obj [("type", .str "string")])]),
        ("required", .arr [.str "p1"]),
        ("type", .str "object")]

/-- The field list of the flattened node the end-to-end fixture normalizes
to (in `BTreeMap` key order). -/
def mergedFields : List (String × Json) :=
  [("properties", .obj [("p1", .obj [("type", .str "string")]),
                        ("p2", .obj [("type", .str "string")])]),
   ("required", .arr [.str "p2", .str "p1"]),
   ("type", .str "object")]

/-- The flattened node the end-to-end fixture normalizes to. -/
def mergedBranches : Json := .obj mergedFields

/-- The end-to-end fixture document. -/
def fixtureAllOf : Json := .obj [("allOf", .arr [branch0, branch1])]

/-- A read-only callback recording each invocation's captured parts. -/
def recCb : CbR (List (List String)) :=
  fun st _node parts _scope => (st ++ [parts], none)

/-- A mutable-walker callback recording each invocation's captured parts
and leaving the node unchanged. -/
def recCbM : Cb (List (List String)) :=
  fun st node parts _scope => (st ++ [parts], node, none)

/-- A callback that counts its invocations and always fails. -/
def failCb : Cb Nat :=
  fun st node _parts _scope => (st + 1, node, some .other)

/-- The wildcard-capture document `{"properties":{"p1":{},"p2":{}}}`. -/
def docProps : Json := .obj [("properties", .obj [("p1", .obj []), ("p2", .obj [])])]

/-- A document with empty, malformed, and well-formed `allOf` nodes. -/
def docMixedAllOf : Json :=
  .obj [("a", .obj [("allOf", .arr [])]),
        ("b", .obj [("allOf", .num 5)]),
        ("c", .obj [("allOf", .arr [.obj [("x", .num 1)]])])]

/-- An `allOf`-free document. -/
def docPlain : Json := .obj [("a", .arr [.num 1, .obj [("b", .str "c")]])]

/-- A document whose `x` child is a scalar, for driving a wildcard segment
into a non-object node. -/
def docScalarChild : Json := .obj [("x", .num 5)]

/-! ## Helper lemmas -/

theorem merge_branches_eq : merge_values branch0 branch1 = mergedBranches := by
  simp +decide [branch0, branch1, mergedBranches, mergedFields,
    merge_values, mergeFields, mergeEntry]

theorem process_merge_fixture :
    process_merge (.obj [("allOf", .arr [branch0, branch1])])
      = (mergedBranches, [.infoAllOf]) := by
  simp [process_merge, objGet, objRemove, merge_branches_eq]
  simp +decide [mergedBranches, mergedFields, merge_values, mergeFields, mergeEntry]

theorem process_node_branch0 : process_node branch0 = (branch0, []) := by
  simp +decide [branch0, process_node, processFields, processElems, objGet, objContains]

theorem process_node_branch1 : process_node branch1 = (branch1, []) := by
  simp +decide [branch1, process_node, processFields, processElems, objGet, objContains]

theorem process_node_fixture :
    process_node fixtureAllOf = (mergedBranches, [.infoAllOf]) := by
  simp +decide [fixtureAllOf, process_node, processFields, processElems, objGet,
    objContains, process_node_branch0, process_node_branch1, process_merge_fixture]

/-- The three no-op statements for `allOf`-free documents, proved together
by induction on a size bound. -/
theorem noop_aux (n : Nat) :
    (∀ j : Json, sizeOf j ≤ n → noAllOf j = true → process_node j = (j, [])) ∧
    (∀ m : List (String × Json), sizeOf m ≤ n → noAllOfFields m = true →
      processFields m = (m, [])) ∧
    (∀ xs : List Json, sizeOf xs ≤ n → noAllOfElems xs = true →
      processElems xs = (xs, [])) := by
  induction n with
  | zero =>
    refine ⟨fun j hj _ => ?_, fun m hm _ => ?_, fun xs hx _ => ?_⟩
    · cases j <;> simp_all
    · cases m <;> simp_all
    · cases xs <;> simp_all
  | succ n ih =>
    obtain ⟨ihj, ihm, ihx⟩ := ih
    refine ⟨fun j hj hno => ?_, fun m hm hno => ?_, fun xs hx hno => ?_⟩
    · cases j with
      | obj m =>
        simp only [noAllOf, Bool.and_eq_true, Bool.not_eq_true'] at hno
        have hm' : processFields m = (m, []) := by
          apply ihm
          · simp_all; omega
          · exact hno.2
        simp [process_node, hm', hno.1]
      | arr xs =>
        simp only [noAllOf] at hno
        have hx' : processElems xs = (xs, []) := by
          apply ihx
          · simp_all; omega
          · exact hno
        simp [process_node, hx']
      | null => simp [process_node]
      | bool b => simp [process_node]
      | num i => simp [process_node]
      | str s => simp [process_node]
    · cases m with
      | nil => simp [processFields]
      | cons kv rest =>
        obtain ⟨k, v⟩ := kv
        simp only [noAllOfFields, Bool.and_eq_true] at hno
        have h1 : process_node v = (v, []) := by
          apply ihj
          · simp_all; omega
          · exact hno.1
        have h2 : processFields rest = (rest, []) := by
          apply ihm
          · simp_all; omega
          · exact hno.2
        simp [processFields, h1, h2]
    · cases xs with
      | nil => simp [processElems]
      | cons v rest =>
        simp only [noAllOfElems, Bool.and_eq_true] at hno
        have h1 : process_node v = (v, []) := by
          apply ihj
          · simp_all; omega
          · exact hno.1
        have h2 : processElems rest = (rest, []) := by
          apply ihx
          · simp_all; omega
          · exact hno.2
        simp [processElems, h1, h2]

/-- An exhausted pattern immediately invokes the callback. -/
theorem each_mut_nil {σ : Type} (node : Json) (scope : Scope) (parts : List String)
    (f : Cb σ) (st : σ) :
    each_mut node scope [] parts f st
      = .res (f st node parts scope).2.1 (f st node parts scope).1 scope parts
          (f st node parts scope).2.2 := by
  simp [each_mut]

/-- The wildcard loop with no remaining segments can never reach the
malformed-segment abort. -/
theorem eachMutWild_nilrest {σ : Type} (done pending : List (String × Json))
    (type_ : String) (ctx : Scope) (parts : List String) (f : Cb σ) (st : σ) :
    eachMutWild done pending type_ ctx [] parts f st ≠ .panicked := by
  induction pending generalizing done ctx parts st with
  | nil => simp [eachMutWild]
  | cons hd tl ih =>
    obtain ⟨key, value⟩ := hd
    rw [eachMutWild]
    rcases hrec : each_mut value (ctx ++ [(type_, key)]) [] (parts ++ [key]) f st with
      ⟨node', st', ctx', parts', e⟩ | _
    · cases e with
      | some err => simp
      | none => simpa using ih _ _ _ _
    · rw [each_mut_nil] at hrec
      exact absurd hrec (by simp)

/-- Merging anything into `Null` yields the source value. -/
theorem merge_values_null (v : Json) : merge_values .null v = v := by
  cases v <;> simp [merge_values]

theorem objGet_eq_none_of_not_mem (a : List (String × Json)) (k : String)
    (h : k ∉ a.map Prod.fst) : objGet a k = none := by
  induction a with
  | nil => simp [objGet]
  | cons kv rest ih =>
    obtain ⟨k', v'⟩ := kv
    simp only [List.map_cons, List.mem_cons, not_or] at h
    simp [objGet, h.1, ih h.2]

/-- The keys of `mergeEntry a k v` come from `a` or are `k` itself. -/
theorem mergeEntry_keys (a : List (String × Json)) (k : String) (v : Json) :
    ∀ q, q ∈ (mergeEntry a k v).map Prod.fst → q = k ∨ q ∈ a.map Prod.fst := by
  induction a with
  | nil =>
    intro q hq
    rw [mergeEntry] at hq
    simp at hq
    left; exact hq
  | cons kv rest ih =>
    obtain ⟨k', v'⟩ := kv
    intro q hq
    rw [mergeEntry] at hq
    split_ifs at hq with h1 h2
    · simp only [List.map_cons, List.mem_cons] at hq
      rcases hq with h | h
      · right; simp only [List.map_cons, List.mem_cons]; left; exact h
      · right; simp only [List.map_cons, List.mem_cons]; right; exact h
    · simp only [List.map_cons, List.mem_cons] at hq
      rcases hq with h | h
      · left; exact h
      · right; simpa using h
    · simp only [List.map_cons, List.mem_cons] at hq
      rcases hq with h | h
      · right; simp only [List.map_cons, List.mem_cons]; left; exact h
      · rcases ih q h with h' | h'
        · left; exact h'
        · right; simp only [List.map_cons, List.mem_cons]; right; exact h'

/-- `mergeEntry` preserves the `BTreeMap` sortedness invariant. -/
theorem mergeEntry_sorted (a : List (String × Json)) (k : String) (v : Json)
    (ha : ObjSorted a) : ObjSorted (mergeEntry a k v) := by
  induction a with
  | nil =>
    rw [mergeEntry]
    simp [ObjSorted]
  | cons kv rest ih =>
    obtain ⟨k', v'⟩ := kv
    rw [ObjSorted, List.map_cons, List.sorted_cons] at ha
    obtain ⟨hlt, hrest⟩ := ha
    rw [mergeEntry]
    split_ifs with h1 h2
    · rw [ObjSorted, List.map_cons, List.sorted_cons]
      exact ⟨hlt, hrest⟩
    · rw [ObjSorted, List.map_cons, List.sorted_cons]
      constructor
      · intro b hb
        simp only [List.map_cons, List.mem_cons] at hb
        rcases hb with h | h
        · rw [h]; exact h2
        · exact lt_trans h2 (hlt b h)
      · rw [List.map_cons, List.sorted_cons]
        exact ⟨hlt, hrest⟩
    · rw [ObjSorted, List.map_cons, List.sorted_cons]
      constructor
      · intro b hb
        rcases mergeEntry_keys rest k v b hb with h | h
        · rw [h]
          rcases lt_trichotomy k k' with h' | h' | h'
          · exact absurd h' h2
          · exact absurd h' h1
          · exact h'
        · exact hlt b h
      · exact ih hrest

/-- Looking up the merged key after `mergeEntry`: an existing entry was
merged in place, an absent one was inserted as a merge into `Null`. -/
theorem mergeEntry_get_self (a : List (String × Json)) (k : String) (v : Json)
    (ha : ObjSorted a) :
    objGet (mergeEntry a k v) k = some (merge_values ((objGet a k).getD .null) v) := by
  induction a with
  | nil =>
    rw [mergeEntry]
    simp [objGet]
  | cons kv rest ih =>
    obtain ⟨k', v'⟩ := kv
    rw [ObjSorted, List.map_cons, List.sorted_cons] at ha
    obtain ⟨hlt, hrest⟩ := ha
    rw [mergeEntry]
    split_ifs with h1 h2
    · simp [objGet, h1]
    · have hnone : objGet rest k = none := by
        apply objGet_eq_none_of_not_mem
        intro hmem
        exact absurd (lt_trans h2 (hlt k hmem)) (lt_irrefl k)
      simp [objGet, h1, hnone]
    · simp [objGet, h1, ih hrest]

/-- `mergeEntry` leaves every other key's binding unchanged. -/
theorem mergeEntry_get_other (a : List (String × Json)) (k : String) (v : Json)
    (q : String) (hq : q ≠ k) :
    objGet (mergeEntry a k v) q = objGet a q := by
  induction a with
  | nil =>
    rw [mergeEntry]
    simp [objGet, hq]
  | cons kv rest ih =>
    obtain ⟨k', v'⟩ := kv
    rw [mergeEntry]
    split_ifs with h1 h2
    · by_cases h3 : q = k'
      · exact absurd (h3.trans h1.symm) hq
      · simp [objGet, h3]
    · simp [objGet, hq]
    · by_cases h3 : q = k'
      · simp [objGet, h3]
      · simp [objGet, h3, ih]

/-- Key-by-key characterization of the object × object merge loop. -/
theorem mergeFields_get (b a : List (String × Json)) (q : String)
    (ha : ObjSorted a) (hb : ObjSorted b) :
    objGet (mergeFields a b) q
      = ((objGet b q).elim (objGet a q)
          (fun vb => some (merge_values ((objGet a q).getD .null) vb))) := by
  induction b generalizing a with
  | nil => simp [mergeFields, objGet]
  | cons kv rest ih =>
    obtain ⟨k, v⟩ := kv
    rw [ObjSorted, List.map_cons, List.sorted_cons] at hb
    obtain ⟨hlt, hrest⟩ := hb
    rw [mergeFields]
    rw [ih (mergeEntry a k v) (mergeEntry_sorted a k v ha) hrest]
    by_cases h1 : q = k
    · subst h1
      have hnone : objGet rest q = none := by
        apply objGet_eq_none_of_not_mem
        intro hmem
        exact absurd (hlt q hmem) (lt_irrefl q)
      simp [objGet, hnone, mergeEntry_get_self a q v ha]
    · rw [mergeEntry_get_other a k v q h1]
      simp [objGet, h1]

/-! ## Claim theorems -/

/-- C1: for an object node whose `allOf` key holds a non-empty array of
branches, composition resolution takes branch 0 as accumulator and folds the
later branches into it with `merge_values` in array order (so later
branches' scalar leaves win on conflict), and the end-to-end fixture
normalizes to the flattened object with `required = ["p2","p1"]` and both
properties present. -/
theorem allOf_fold_left_and_fixture :
    (∀ (m : List (String × Json)) (b0 : Json) (bs : List Json),
      objGet m "allOf" = some (.arr (b0 :: bs)) →
      process_merge (.obj m)
        = (merge_values (.obj (objRemove m "allOf")) (bs.foldl merge_values b0),
           [.infoAllOf])) ∧
    process_node fixtureAllOf = (mergedBranches, [.infoAllOf]) ∧
    objGet mergedFields "required" = some (.arr [.str "p2", .str "p1"]) ∧
    objGet mergedFields "properties"
      = some (.obj [("p1", .obj [("type", .str "string")]),
                    ("p2", .obj [("type", .str "string")])]) ∧
    objGet mergedFields "allOf" = none ∧
    process_node (.obj [("allOf", .arr [.obj [("t", .num 1)], .obj [("t", .num 2)]])])
      = (.obj [("t", .num 2)], [.infoAllOf]) := by
  refine ⟨fun m b0 bs h => by simp [process_merge, h], process_node_fixture,
    by simp [mergedFields, objGet], by simp [mergedFields, objGet],
    by simp +decide [mergedFields, objGet], ?_⟩
  simp +decide [process_node, processFields, processElems, process_merge,
    objGet, objContains, objRemove, merge_values, mergeFields, mergeEntry]

/-- Witness for C1 at a concrete two-branch `allOf` object. -/
theorem allOf_fold_left_and_fixture_witness :
    process_merge (.obj [("allOf", .arr [.obj [], .obj [("a", .num 1)]])])
      = (merge_values
          (.obj (objRemove [("allOf", .arr [.obj [], .obj [("a", .num 1)]])] "allOf"))
          ([Json.obj [("a", .num 1)]].foldl merge_values (.obj [])),
         [.infoAllOf]) :=
  allOf_fold_left_and_fixture.1 _ _ _ (by simp [objGet])

/-- C2: a node carrying both `allOf` and sibling properties has the `allOf`
key removed and the resolved accumulator merged into it with the node as
target and the accumulator as source, so `allOf`-derived scalar leaves win;
in particular `{"allOf":[{"x":1}],"x":2}` normalizes to `{"x":1}`. -/
theorem sibling_precedence :
    (∀ (m : List (String × Json)) (b0 : Json) (bs : List Json),
      objGet m "allOf" = some (.arr (b0 :: bs)) →
      (process_merge (.obj m)).1
        = merge_values (.obj (objRemove m "allOf")) (bs.foldl merge_values b0)) ∧
    process_node (.obj [("allOf", .arr [.obj [("x", .num 1)]]), ("x", .num 2)])
      = (.obj [("x", .num 1)], [.infoAllOf]) := by
  refine ⟨fun m b0 bs h => by simp [process_merge, h], ?_⟩
  simp +decide [process_node, processFields, processElems, process_merge,
    objGet, objContains, objRemove, merge_values, mergeFields, mergeEntry]

/-- Witness for C2 at a concrete `allOf`-with-sibling object. -/
theorem sibling_precedence_witness :
    (process_merge (.obj [("allOf", .arr [.obj [("x", .num 1)]]), ("x", .num 2)])).1
      = merge_values
          (.obj (objRemove [("allOf", .arr [.obj [("x", .num 1)]]), ("x", .num 2)] "allOf"))
          (([] : List Json).foldl merge_values (.obj [("x", .num 1)])) :=
  sibling_precedence.1 _ _ _ (by simp [objGet])

/-- C3: `merge_values` is a total function on every pair of shapes:
Array × Array concatenates without deduplication, every non-matching shape
combination replaces the target with the source, Object × Object merges
per source key — an existing key's binding is merged recursively, an absent
key is inserted (as a merge into `Null`, which yields the source value),
and target-only keys are untouched. -/
theorem merge_values_total_spec :
    (∀ a b : List Json, merge_values (.arr a) (.arr b) = .arr (a ++ b)) ∧
    merge_values (.arr [.num 1, .num 2]) (.arr [.num 2, .num 3])
      = .arr [.num 1, .num 2, .num 2, .num 3] ∧
    (∀ x y : Json, (x.isObj && y.isObj) = false → (x.isArr && y.isArr) = false →
      merge_values x y = y) ∧
    (∀ (a b : List (String × Json)) (q : String), ObjSorted a → ObjSorted b →
      objGet (mergeFields a b) q
        = ((objGet b q).elim (objGet a q)
            (fun vb => some (merge_values ((objGet a q).getD .null) vb)))) ∧
    (∀ v : Json, merge_values .null v = v) := by
  refine ⟨fun a b => by simp [merge_values], by simp [merge_values],
    fun x y h1 h2 => ?_, fun a b q ha hb => mergeFields_get b a q ha hb,
    merge_values_null⟩
  cases x <;> cases y <;> simp_all [merge_values, Json.isObj, Json.isArr]

/-- Witness for C3 at concrete shapes and sorted objects. -/
theorem merge_values_total_spec_witness :
    merge_values (.num 7) (.str "s") = .str "s" ∧
    objGet (mergeFields [("a", .num 1), ("c", .num 3)] [("a", .num 2), ("b", .num 5)]) "a"
      = ((objGet [("a", Json.num 2), ("b", Json.num 5)] "a").elim
          (objGet [("a", Json.num 1), ("c", Json.num 3)] "a")
          (fun vb => some (merge_values
            ((objGet [("a", Json.num 1), ("c", Json.num 3)] "a").getD .null) vb))) :=
  ⟨merge_values_total_spec.2.2.1 (.num 7) (.str "s") (by decide) (by decide),
   merge_values_total_spec.2.2.2.1 _ _ "a"
     (by simp [ObjSorted]; decide) (by simp [ObjSorted]; decide)⟩

/-- C4 (counterexample): the single-segment pattern `properties:*` over
`{"properties":{"p1":{},"p2":{}}}` wildcards over the root's own keys, so
the callback runs exactly once with captured parts `["properties"]` — not
twice with `["p1"]` and `["p2"]`. -/
theorem wildcard_single_segment_counterexample :
    each_node_mut docProps [] "properties:*" recCbM []
      = .res docProps [["properties"]] [] [] none ∧
    ([["properties"]] : List (List String)) ≠ [["p1"], ["p2"]] := by
  refine ⟨?_, by decide⟩
  simp +decide [docProps, each_node_mut, each_mut, eachMutWild, trimSlashes,
    recCbM, pointerStep, setChild, objGet, unescapeToken, listReplace,
    parse_index, digitsToNat?, splitString, splitChar]

/-- C4 (amended): with a two-segment pattern whose first segment selects the
literal child `properties` and whose second is the wildcard
(`any:properties/properties:*`), both walker entry points invoke the
callback exactly twice over `{"properties":{"p1":{},"p2":{}}}`, with
captured parts `["p1"]` then `["p2"]`, in the object's own key order. -/
theorem wildcard_capture_two_invocations :
    each_node_mut docProps [] "any:properties/properties:*" recCbM []
      = .res docProps [["p1"], ["p2"]] [] [] none ∧
    each_node docProps [] "any:properties/properties:*" recCb []
      = .res [["p1"], ["p2"]] [] [] none := by
  constructor
  · simp +decide [docProps, each_node_mut, each_mut, eachMutWild, trimSlashes,
      recCbM, pointerStep, setChild, objGet, unescapeToken, listReplace,
      parse_index, digitsToNat?, splitString, splitChar]
  · simp +decide [docProps, each_node, each, eachWild, trimSlashes,
      recCb, pointerStep, objGet, unescapeToken, listReplace,
      parse_index, digitsToNat?, splitString, splitChar]

/-- C5: evaluating the mutable walker at a failing callback shows the scope
leak — the wildcard's pushed segment `("t","k")` and captured part `"k"` are
still on their stacks when the failure reaches the entry point, so a call
that started with an empty Scope Tracker returns with depth 1. -/
theorem scope_leak_on_error :
    each_node_mut (.obj [("k", .num 0)]) [] "t:*" failCb 0
      = .res (.obj [("k", .num 0)]) 1 [("t", "k")] ["k"] (some .other) ∧
    ([("t", "k")] : Scope) ≠ ([] : Scope) := by
  refine ⟨?_, by decide⟩
  simp +decide [each_node_mut, each_mut, eachMutWild, trimSlashes, failCb,
    splitString, splitChar]

/-- C6: an `allOf` whose value is not an array, or is an empty array, only
produces a warning and leaves the node (including the `allOf` key) exactly
as it was; a pass over a document with such nodes still completes and
resolves the well-formed `allOf` nodes. -/
theorem malformed_allOf_warn_and_continue :
    (∀ (m : List (String × Json)) (v : Json),
      objGet m "allOf" = some v → v.isArr = false →
      process_merge (.obj m) = (.obj m, [.warnAllOfNotArray])) ∧
    (∀ m : List (String × Json),
      objGet m "allOf" = some (.arr []) →
      process_merge (.obj m) = (.obj m, [.warnEmptyAllOf])) ∧
    process_node docMixedAllOf
      = (.obj [("a", .obj [("allOf", .arr [])]),
               ("b", .obj [("allOf", .num 5)]),
               ("c", .obj [("x", .num 1)])],
         [.warnEmptyAllOf, .warnAllOfNotArray, .infoAllOf]) := by
  refine ⟨fun m v h hv => ?_, fun m h => by simp [process_merge, h], ?_⟩
  · cases v <;> simp_all [process_merge, Json.isArr]
  · simp +decide [docMixedAllOf, process_node, processFields, processElems,
      process_merge, objGet, objContains, objRemove, merge_values, mergeFields,
      mergeEntry]

/-- Witness for C6 at concrete malformed nodes. -/
theorem malformed_allOf_warn_and_continue_witness :
    process_merge (.obj [("allOf", .num 5)]) = (.obj [("allOf", .num 5)], [.warnAllOfNotArray]) ∧
    process_merge (.obj [("allOf", .arr [])]) = (.obj [("allOf", .arr [])], [.warnEmptyAllOf]) :=
  ⟨malformed_allOf_warn_and_continue.1 _ (.num 5) (by simp [objGet]) (by decide),
   malformed_allOf_warn_and_continue.2.1 _ (by simp [objGet])⟩

/-- C7: running the normalizer over a document containing no `allOf` key at
any node is a no-op (and emits no diagnostics). -/
theorem normalize_allOf_free_noop (j : Json) (h : noAllOf j = true) :
    process_node j = (j, []) :=
  (noop_aux (sizeOf j)).1 j le_rfl h

/-- Witness for C7 at a concrete `allOf`-free document. -/
theorem normalize_allOf_free_noop_witness :
    noAllOf docPlain = true ∧ process_node docPlain = (docPlain, []) :=
  ⟨by simp +decide [docPlain, noAllOf, noAllOfFields, noAllOfElems, objContains, objGet],
   normalize_allOf_free_noop docPlain
     (by simp +decide [docPlain, noAllOf, noAllOfFields, noAllOfElems, objContains, objGet])⟩

/-- C8: a wildcard segment reached at a non-object node makes both walkers
return the typed `NotImplemented` failure, and the failure propagates
through enclosing literal segments to the entry point (shown concretely for
`a:x/b:*` over `{"x":5}`). -/
theorem wildcard_nonobject_fails :
    (∀ (σ : Type) (node : Json) (scope : Scope) (parts : List String)
      (s t : String) (rest : List String) (f : Cb σ) (st : σ),
      splitString ':' s = [t, "*"] → node.isObj = false →
      each_mut node scope (s :: rest) parts f st
        = .res node st scope parts (some .notImplemented)) ∧
    (∀ (σ : Type) (node : Json) (scope : Scope) (parts : List String)
      (s t : String) (rest : List String) (f : CbR σ) (st : σ),
      splitString ':' s = [t, "*"] → node.isObj = false →
      each node scope (s :: rest) parts f st
        = .res st scope parts (some .notImplemented)) ∧
    each_node_mut docScalarChild [] "a:x/b:*" recCbM []
      = .res docScalarChild [] [("a", "x")] [] (some .notImplemented) := by
  refine ⟨fun σ node scope parts s t rest f st hs hn => ?_,
    fun σ node scope parts s t rest f st hs hn => ?_, ?_⟩
  · cases node <;> simp_all [each_mut, Json.isObj]
  · cases node <;> simp_all [each, Json.isObj]
  · simp +decide [each_node_mut, each_mut, eachMutWild, trimSlashes, recCbM,
      splitString, splitChar, pointerStep, setChild, objGet, unescapeToken,
      listReplace, parse_index, digitsToNat?, docScalarChild]

/-- Witness for C8 at concrete non-object nodes. -/
theorem wildcard_nonobject_fails_witness :
    each_mut (.arr []) [] ["b:*"] [] failCb 0
      = .res (.arr []) 0 [] [] (some .notImplemented) ∧
    each (.num 3) [] ["b:*"] [] recCb []
      = .res [] [] [] (some .notImplemented) :=
  ⟨wildcard_nonobject_fails.1 Nat (.arr []) [] [] "b:*" "b" [] failCb 0
     (by decide) (by decide),
   wildcard_nonobject_fails.2.1 (List (List String)) (.num 3) [] [] "b:*" "b" [] recCb []
     (by decide) (by decide)⟩

/-- C9: a pattern segment splitting on `:` into exactly two parts is
accepted by the walker (the traversal never aborts), while a segment of any
other shape aborts the process, never being silently ignored. -/
theorem segment_shape_accept_or_abort {σ : Type} (s : String) (node : Json)
    (scope : Scope) (parts : List String) (f : Cb σ) (st : σ) :
    ((splitString ':' s).length = 2 →
      each_mut node scope [s] parts f st ≠ .panicked) ∧
    ((splitString ':' s).length ≠ 2 →
      each_mut node scope [s] parts f st = .panicked) := by
  rcases hsp : splitString ':' s with _ | ⟨a, _ | ⟨b, _ | ⟨c, d⟩⟩⟩
  · exact ⟨by simp, fun _ => by simp [each_mut, hsp]⟩
  · exact ⟨by simp, fun _ => by simp [each_mut, hsp]⟩
  · refine ⟨fun _ => ?_, by simp⟩
    rw [each_mut]
    rw [hsp]
    by_cases hb : b = "*"
    · subst hb
      simp only [if_pos rfl]
      cases node <;> simp [eachMutWild_nilrest]
    · simp only [if_neg hb]
      rcases hp : pointerStep node b with _ | child
      · simp
      · simp only []
        rcases hrec : each_mut child (scope ++ [(a, b)]) [] parts f st with
          ⟨n', st', ctx', parts', e⟩ | _
        · cases e <;> simp
        · rw [each_mut_nil] at hrec
          exact absurd hrec (by simp)
  · exact ⟨by simp_all, fun _ => by simp [each_mut, hsp]⟩

/-- Witness for C9: a well-formed segment is accepted, a colon-free one
aborts. -/
theorem segment_shape_accept_or_abort_witness :
    each_mut (.obj []) [] ["a:b"] [] failCb 0 ≠ .panicked ∧
    each_mut (.obj []) [] ["abc"] [] failCb 0 = .panicked :=
  ⟨(segment_shape_accept_or_abort "a:b" (.obj []) [] [] failCb 0).1 (by decide),
   (segment_shape_accept_or_abort "abc" (.obj []) [] [] failCb 0).2 (by decide)⟩

/-- C10: a literal pattern segment resolves its key as a JSON-Pointer token:
on an array a decimal-index key descends into that element; when the lookup
finds a child, the callback runs on it with the scope segment pushed, and on
success the segment is popped again; when no child matches, the traversal
returns success without invoking the callback, with the scope segment pushed
and popped around the attempt. -/
theorem literal_segment_resolution {σ : Type} (s t k : String)
    (hs : splitString ':' s = [t, k]) (hk : k ≠ "*")
    (scope : Scope) (parts : List String) (f : Cb σ) (st : σ) :
    (∀ (xs : List Json) (i : Nat) (x : Json),
      parse_index (unescapeToken k) = some i → xs[i]? = some x →
      pointerStep (.arr xs) k = some x) ∧
    (∀ (node child : Json) (st' : σ) (child' : Json),
      pointerStep node k = some child →
      f st child parts (scope ++ [(t, k)]) = (st', child', none) →
      each_mut node scope [s] parts f st
        = .res (setChild node k child') st' scope parts none) ∧
    (∀ node : Json, pointerStep node k = none →
      each_mut node scope [s] parts f st = .res node st scope parts none) := by
  refine ⟨fun xs i x h1 h2 => ?_, fun node child st' child' hp hf => ?_,
    fun node hp => ?_⟩
  · simp [pointerStep, h1, h2]
  · rw [each_mut, hs]
    simp only [if_neg hk, hp]
    rw [each_mut_nil, hf]
    simp
  · rw [each_mut, hs]
    simp [if_neg hk, hp]

/-- Witness for C10: index descent on an array, callback invocation on the
found child, and the silent success on a missing child. -/
theorem literal_segment_resolution_witness :
    pointerStep (.arr [.str "a", .str "b"]) "1" = some (.str "b") ∧
    each_mut (.arr [.str "a", .str "b"]) [] ["t:1"] [] recCbM []
      = .res (setChild (.arr [.str "a", .str "b"]) "1" (.str "b")) [[]] [] [] none ∧
    each_mut (.obj []) [] ["t:1"] [] recCbM []
      = .res (.obj []) [] [] [] none := by
  have h := literal_segment_resolution (σ := List (List String)) "t:1" "t" "1"
    (by decide) (by decide) [] [] recCbM []
  refine ⟨h.1 [.str "a", .str "b"] 1 (.str "b") ?hpi (by simp),
    h.2.1 (.arr [.str "a", .str "b"]) (.str "b") [[]] (.str "b") ?hp1 (by simp [recCbM]),
    h.2.2 (.obj []) (by simp [pointerStep, unescapeToken, listReplace, objGet])⟩
  case hpi => simp [parse_index, unescapeToken, listReplace, digitsToNat?]
  case hp1 =>
    simp [pointerStep, parse_index, unescapeToken, listReplace, digitsToNat?]

end SchemaTools
